import Mathlib

/-!
Shallow embedding of the EasyTier IPv6 delegation core:
`easytier/src/common/ipv6_allocator.rs` (stable address allocator) and
`easytier/src/ipv6_delegate.rs` (on-link /64 discovery, deterministic
interface-identifier derivation, the delegation RPC server, and the
policy-routing table-id computation).

Machine integers are modelled as `Nat` with explicit reductions modulo
`2 ^ 32`, `2 ^ 64` and `2 ^ 128` exactly where the Rust code can wrap.
SHA-256 (used by the identifier derivation) is embedded executably.
-/

namespace EasyTier

/-! ## Machine-word helpers -/

/-- Reduction of a `Nat` to a 32-bit machine word (`u32` semantics). -/
def w32 (n : Nat) : Nat := n % 4294967296

/-- Reduction of a `Nat` to a 64-bit machine word (`u64` semantics). -/
def w64 (n : Nat) : Nat := n % 18446744073709551616

/-- 32-bit right rotation, as used by the SHA-256 compression function. -/
def rotr32 (x n : Nat) : Nat := w32 ((x >>> n) ||| (x <<< (32 - n)))

/-! ## SHA-256 (pure, executable embedding)

The derivation in `alloc_addrs_for_peer` hashes the requester id and the
chosen on-link network address with SHA-256 (`sha2` crate).  The hash is
embedded here over byte lists so derived identifiers can be computed. -/

def shaCh (x y z : Nat) : Nat := (x &&& y) ^^^ ((x ^^^ 4294967295) &&& z)

def shaMaj (x y z : Nat) : Nat := (x &&& y) ^^^ (x &&& z) ^^^ (y &&& z)

def shaBig0 (x : Nat) : Nat := rotr32 x 2 ^^^ rotr32 x 13 ^^^ rotr32 x 22

def shaBig1 (x : Nat) : Nat := rotr32 x 6 ^^^ rotr32 x 11 ^^^ rotr32 x 25

def shaSmall0 (x : Nat) : Nat := rotr32 x 7 ^^^ rotr32 x 18 ^^^ (x >>> 3)

def shaSmall1 (x : Nat) : Nat := rotr32 x 17 ^^^ rotr32 x 19 ^^^ (x >>> 10)

/-- The 64 SHA-256 round constants. -/
def shaK : List Nat :=
  [1116352408, 1899447441, 3049323471, 3921009573, 961987163,
   1508970993, 2453635748, 2870763221, 3624381080, 310598401,
   607225278, 1426881987, 1925078388, 2162078206, 2614888103,
   3248222580, 3835390401, 4022224774, 264347078, 604807628,
   770255983, 1249150122, 1555081692, 1996064986, 2554220882,
   2821834349, 2952996808, 3210313671, 3336571891, 3584528711,
   113926993, 338241895, 666307205, 773529912, 1294757372,
   1396182291, 1695183700, 1986661051, 2177026350, 2456956037,
   2730485921, 2820302411, 3259730800, 3345764771, 3516065817,
   3600352804, 4094571909, 275423344, 430227734, 506948616,
   659060556, 883997877, 958139571, 1322822218, 1537002063,
   1747873779, 1955562222, 2024104815, 2227730452, 2361852424,
   2428436474, 2756734187, 3204031479, 3329325298]

/-- The SHA-256 initial hash state. -/
def shaH0 : List Nat :=
  [1779033703, 3144134277, 1013904242, 2773480762,
   1359893119, 2600822924, 528734635, 1541459225]

/-- Group a byte list into big-endian 32-bit words. -/
def bytesToWords : List Nat → List Nat
  | b0 :: b1 :: b2 :: b3 :: rest => (b0 * 16777216 + b1 * 65536 + b2 * 256 + b3) :: bytesToWords rest
  | _ => []

/-- Message-schedule extension.  `acc` holds the schedule so far in reverse
order (most recent word first); the counter is the number of words left to
produce. -/
def shaExtend (acc : List Nat) : Nat → List Nat
  | 0 => acc.reverse
  | n+1 =>
    shaExtend
      (w32 (acc.getD 15 0 + shaSmall0 (acc.getD 14 0) + acc.getD 6 0 + shaSmall1 (acc.getD 1 0)) :: acc) n

/-- The eight SHA-256 working registers. -/
structure ShaState where
  a : Nat
  b : Nat
  c : Nat
  d : Nat
  e : Nat
  f : Nat
  g : Nat
  h : Nat

/-- One SHA-256 compression round on a (constant, schedule word) pair. -/
def shaRound (st : ShaState) (kw : Nat × Nat) : ShaState :=
  let t1 := w32 (st.h + shaBig1 st.e + shaCh st.e st.f st.g + kw.1 + kw.2)
  let t2 := w32 (shaBig0 st.a + shaMaj st.a st.b st.c)
  ⟨w32 (t1 + t2), st.a, st.b, st.c, w32 (st.d + t1), st.e, st.f, st.g⟩

/-- Compress one 64-byte block into the running hash value. -/
def shaCompressBlock (hs : List Nat) (block : List Nat) : List Nat :=
  let ws := shaExtend (bytesToWords block).reverse 48
  let st0 : ShaState :=
    ⟨hs.getD 0 0, hs.getD 1 0, hs.getD 2 0, hs.getD 3 0,
     hs.getD 4 0, hs.getD 5 0, hs.getD 6 0, hs.getD 7 0⟩
  let st := (shaK.zip ws).foldl shaRound st0
  [w32 (hs.getD 0 0 + st.a), w32 (hs.getD 1 0 + st.b), w32 (hs.getD 2 0 + st.c),
   w32 (hs.getD 3 0 + st.d), w32 (hs.getD 4 0 + st.e), w32 (hs.getD 5 0 + st.f),
   w32 (hs.getD 6 0 + st.g), w32 (hs.getD 7 0 + st.h)]

/-- Big-endian byte expansion: `beBytes k v` is the `k`-byte big-endian
encoding of `v` (low `8 * k` bits). -/
def beBytes : Nat → Nat → List Nat
  | 0, _ => []
  | k+1, v => ((v >>> (8 * k)) % 256) :: beBytes k v

/-- SHA-256 padding: append `0x80`, zero bytes to 56 mod 64, and the
64-bit big-endian bit length. -/
def shaPad (msg : List Nat) : List Nat :=
  let len := msg.length
  let padZeros := (119 - len % 64) % 64
  msg ++ 128 :: List.replicate padZeros 0 ++ beBytes 8 (8 * len)

/-- Split a padded message into 64-byte blocks (fuelled by the length). -/
def toBlocksGo : Nat → List Nat → List (List Nat)
  | 0, _ => []
  | _+1, [] => []
  | n+1, l => l.take 64 :: toBlocksGo n (l.drop 64)

/-- Split a padded message into 64-byte blocks. -/
def toBlocks (l : List Nat) : List (List Nat) := toBlocksGo l.length l

/-- SHA-256 of a byte list, returned as the eight 32-bit hash words. -/
def sha256Words (msg : List Nat) : List Nat :=
  (toBlocks (shaPad msg)).foldl shaCompressBlock shaH0

/-! ## IPv6 address helpers

Addresses are 128-bit values modelled as `Nat`.  `segAt ip i` is
`Ipv6Addr::segments()[i]`, the `i`-th 16-bit segment, most significant
first. -/

/-- The `i`-th 16-bit segment of a 128-bit address (`segments()[i]`). -/
def segAt (ip i : Nat) : Nat := (ip >>> (16 * (7 - i))) % 65536

/-- Reassemble eight 16-bit segments into a 128-bit address
(`Ipv6Addr::from(segs)`). -/
def fromSegs (s0 s1 s2 s3 s4 s5 s6 s7 : Nat) : Nat :=
  ((((((s0 * 65536 + s1) * 65536 + s2) * 65536 + s3) * 65536 + s4) * 65536 + s5) * 65536 + s6)
    * 65536 + s7

/-- Model of `cidr::Ipv6Inet`: an address together with a network length. -/
structure Ipv6InetM where
  address : Nat
  network_length : Nat
deriving DecidableEq

/-- `Ipv6Inet::first_address()`: the address with its host bits zeroed. -/
def Ipv6InetM.firstAddress (p : Ipv6InetM) : Nat :=
  p.address - p.address % 2 ^ (128 - p.network_length)

/-- Rust `Ipv6Addr::is_multicast` (`ff00::/8`). -/
def ipv6IsMulticast (ip : Nat) : Bool := segAt ip 0 &&& 0xff00 == 0xff00

/-- Rust `Ipv6Addr::is_loopback` (`::1`). -/
def ipv6IsLoopback (ip : Nat) : Bool := ip == 1

/-- Rust `Ipv6Addr::is_unspecified` (`::`). -/
def ipv6IsUnspecified (ip : Nat) : Bool := ip == 0

/-- Rust `Ipv6Addr::is_unique_local` (`fc00::/7`). -/
def ipv6IsUniqueLocal (ip : Nat) : Bool := segAt ip 0 &&& 0xfe00 == 0xfc00

/-- Rust `Ipv6Addr::is_unicast_link_local` (`fe80::/10`). -/
def ipv6IsUnicastLinkLocal (ip : Nat) : Bool := segAt ip 0 &&& 0xffc0 == 0xfe80

/-- `pnet::ipnetwork::ip_mask_to_prefix` for IPv6: a mask converts to a
network length iff it consists of `p` leading one bits followed by zeros;
non-contiguous masks fail (return `none`). -/
def maskToPrefixLen (mask : Nat) : Option Nat :=
  (List.range 129).find? fun p => mask == 2 ^ 128 - 2 ^ (128 - p)

/-! ## On-link prefix discovery (`list_onlink_prefixes`)

`getifaddrs` entries are modelled as records of interface name plus
optional address and netmask socket addresses. -/

/-- A socket address as classified by `SockaddrStorage::family()`. -/
inductive SockAddrM where
  | inet (ip : Nat)
  | inet6 (ip : Nat)
  | other
deriving DecidableEq

/-- One `getifaddrs` entry. -/
structure IfEntry where
  interface_name : String
  address : Option SockAddrM
  netmask : Option SockAddrM
deriving DecidableEq

/-- Kernel-computable `String.startsWith` (prefix test on the character
lists). -/
def strStartsWith (s p : String) : Bool := p.data.isPrefixOf s.data

/-- The virtual/tunnel interface-name filter of `list_onlink_prefixes`. -/
def isVirtualIfaceName (name : String) : Bool :=
  strStartsWith name ("lo") || strStartsWith name ("tun") || strStartsWith name ("utun")
    || strStartsWith name ("wg") || strStartsWith name ("docker") || strStartsWith name ("veth")
    || strStartsWith name ("br-") || strStartsWith name ("virbr")

/-- The body of the `list_onlink_prefixes` loop for one `getifaddrs`
entry: `none` models `continue`, `some` models `ret.push(..)`. -/
def entryOnlink (e : IfEntry) : Option (String × Ipv6InetM) :=
  if isVirtualIfaceName e.interface_name then none
  else
    match e.address, e.netmask with
    | some (.inet6 ip), some (.inet6 mask) =>
      if ipv6IsMulticast ip || ipv6IsLoopback ip || ipv6IsUnspecified ip
          || ipv6IsUniqueLocal ip || ipv6IsUnicastLinkLocal ip then none
      else if (maskToPrefixLen mask).getD 64 ≠ 64 then none
      else some (e.interface_name, ⟨ip, 64⟩)
    | _, _ => none

/-- `Ipv6DelegateServer::list_onlink_prefixes` over a list of enumerated
interface entries. -/
def list_onlink_prefixes (entries : List IfEntry) : List (String × Ipv6InetM) :=
  entries.filterMap entryOnlink

/-! ## Deterministic identifier derivation and per-request allocation -/

/-- The deterministic base identifier of `alloc_addrs_for_peer`: the first
8 bytes (big-endian) of `SHA-256(requester_peer_id.to_be_bytes() ++
first_address.octets())`, with the low bit forced to 1 (`iid |= 1`). -/
def deriveIidBase (requester firstAddr : Nat) : Nat :=
  let ws := sha256Words (beBytes 4 requester ++ beBytes 16 firstAddr)
  (ws.getD 0 0 * 4294967296 + ws.getD 1 0) ||| 1

/-- The in-batch collision loop `while used_iids.contains(&iid) { iid =
iid.wrapping_add(1 + salt); salt += 1 }`, fuelled.  The Rust loop is
unbounded; with fuel `used.length + 1` the model agrees with it whenever
the loop terminates (proved below: an unused value is always found within
`used.length + 1` probes when the probed values are distinct). -/
def perturbIid (used : List Nat) : Nat → Nat → Nat → Nat
  | iid, _, 0 => iid
  | iid, salt, fuel+1 =>
    if iid ∈ used then perturbIid used (w64 (iid + w64 (1 + salt))) (salt + 1) fuel else iid

/-- Overwrite the last four 16-bit segments of `firstAddr` with the four
16-bit slices of the 64-bit identifier, most significant first. -/
def buildAddr (firstAddr iid : Nat) : Nat :=
  fromSegs (segAt firstAddr 0) (segAt firstAddr 1) (segAt firstAddr 2) (segAt firstAddr 3)
    ((iid >>> 48) &&& 0xFFFF) ((iid >>> 32) &&& 0xFFFF) ((iid >>> 16) &&& 0xFFFF) (iid &&& 0xFFFF)

/-- The per-prefix loop of `alloc_addrs_for_peer`: derive an identifier,
resolve in-batch collisions, record it as used, and emit the /128. -/
def allocGo (requester : Nat) : List (String × Ipv6InetM) → List Nat → List (String × Ipv6InetM)
  | [], _ => []
  | (iface, pfx) :: rest, used =>
    let iid := perturbIid used (deriveIidBase requester pfx.firstAddress) 0 (used.length + 1)
    (iface, ⟨buildAddr pfx.firstAddress iid, 128⟩) :: allocGo requester rest (iid :: used)

/-- `alloc_addrs_for_peer` from the discovered prefix list on: empty
discovery short-circuits; `count == 0` means all prefixes, otherwise
`count.min(prefixes.len() as u32)` (note the `as u32` truncation of the
length); then one address per selected prefix. -/
def allocOnPrefixes (requester count : Nat) (pfxs : List (String × Ipv6InetM)) :
    List (String × Ipv6InetM) :=
  if pfxs.isEmpty then []
  else
    let want := if count = 0 then pfxs.length % 4294967296
                else min count (pfxs.length % 4294967296)
    allocGo requester (pfxs.take want) []

/-- `Ipv6DelegateServer::alloc_addrs_for_peer`. -/
def alloc_addrs_for_peer (entries : List IfEntry) (requester count : Nat) :
    List (String × Ipv6InetM) :=
  allocOnPrefixes requester count (list_onlink_prefixes entries)

/-! ## The delegation RPC handler (`request_delegation`) -/

/-- The RPC request: requester peer id and requested address count. -/
structure RequestDelegationRequest where
  requester_peer_id : Nat
  count : Nat
deriving DecidableEq

/-- The RPC response: `/128` networks, error text (empty means success)
and the optional server-side overlay anchor address. -/
structure RequestDelegationResponse where
  addrs : List Ipv6InetM
  error : String
  server_overlay_ipv6 : Option Nat
deriving DecidableEq

/-- `Ipv6DelegateServer::request_delegation`.  The OS side effects
(sysctl writes, `ip` commands) do not influence the response and are not
modelled; the result type mirrors `Result<_, rpc_types::error::Error>`
and the translation, like the source, constructs only `Ok` values. -/
def request_delegation (enable_ipv6_delegate_server : Bool) (entries : List IfEntry)
    (request : RequestDelegationRequest) : Except String RequestDelegationResponse :=
  if !enable_ipv6_delegate_server then
    .ok ⟨[], "server disabled", none⟩
  else
    let addrs := alloc_addrs_for_peer entries request.requester_peer_id request.count
    if addrs.isEmpty then
      .ok ⟨[], "no on-link /64 found", none⟩
    else
      .ok ⟨addrs.map (·.2), "", addrs.head?.map fun p => p.2.address⟩

/-! ## Policy-routing table id (`configure_source_policy_for_addr`) -/

/-- `u16::to_be_bytes`. -/
def u16BeBytes (n : Nat) : List Nat := [(n >>> 8) % 256, n % 256]

/-- `u16::from_be_bytes`. -/
def u16OfBeBytes (l : List Nat) : Nat := l.getD 0 0 * 256 + l.getD 1 0

/-- The table id of `configure_source_policy_for_addr`:
`50000 + (u16::from_be_bytes(addr.segments()[7].to_be_bytes()) as u32 % 4096)`. -/
def tableIdForAddr (addr : Nat) : Nat :=
  50000 + u16OfBeBytes (u16BeBytes (segAt addr 7)) % 4096

/-! ## The stable address allocator (`ipv6_allocator.rs`) -/

/-- Model of `cidr::Ipv6Cidr` (a network: base address plus length). -/
structure Ipv6Cidr where
  address : Nat
  network_length : Nat
deriving DecidableEq

/-- The `cidr` crate's type invariant for `Ipv6Cidr`: the length is at
most 128, the address is a 128-bit value, and all host bits are zero (the
stored address is the network's first address). -/
def CidrValid (c : Ipv6Cidr) : Prop :=
  c.network_length ≤ 128 ∧ c.address < 2 ^ 128 ∧ c.address % 2 ^ (128 - c.network_length) = 0

/-- Requester identity (`PeerId` is `u32` in the source). -/
abbrev PeerId := Nat

/-- Model of `Ipv6Allocator`: the fixed network (source field name:
`prefix`), the cursor behind the mutex (`next`), and the assignment map
(`assigned`, a `DashMap` modelled as an association list, newest first). -/
structure Ipv6Allocator where
  pfx : Ipv6Cidr
  next : Nat
  assigned : List (PeerId × Nat)
deriving DecidableEq

/-- `Ipv6Allocator::new`: cursor starts at 1, no assignments. -/
def Ipv6Allocator.new (c : Ipv6Cidr) : Ipv6Allocator := ⟨c, 1, []⟩

/-- `DashMap::get` on the model's association list. -/
def findAssigned : List (PeerId × Nat) → PeerId → Option Nat
  | [], _ => none
  | (k, v) :: rest, id => if k = id then some v else findAssigned rest id

/-- The cache lookup of `allocate` (`self.assigned.get(&peer_id)`): this
read happens before the cursor mutex is taken. -/
def allocateCached (s : Ipv6Allocator) (peer : PeerId) : Option Nat :=
  findAssigned s.assigned peer

/-- The remainder of `allocate` executed under the cursor mutex: capacity
check, address formation `base + cursor` (u128 addition), cursor advance
and map insert. -/
def allocateLocked (s : Ipv6Allocator) (peer : PeerId) : Option Nat × Ipv6Allocator :=
  let host_bits := 128 - s.pfx.network_length
  let max_hosts := 2 ^ host_bits
  if s.next ≥ max_hosts then (none, s)
  else
    let addr := (s.pfx.address + s.next) % 2 ^ 128
    (some addr, ⟨s.pfx, s.next + 1, (peer, addr) :: s.assigned⟩)

/-- `Ipv6Allocator::allocate`: cached lookup first, otherwise the locked
section. -/
def allocate (s : Ipv6Allocator) (peer : PeerId) : Option Nat × Ipv6Allocator :=
  match allocateCached s peer with
  | some a => (some a, s)
  | none => allocateLocked s peer

/-- States reachable from a freshly constructed allocator by any sequence
of `allocate` calls. -/
inductive Reachable : Ipv6Allocator → Prop where
  | init (c : Ipv6Cidr) : Reachable (Ipv6Allocator.new c)
  | step (s : Ipv6Allocator) (id : PeerId) : Reachable s → Reachable (allocate s id).2

/-- `AllocSteps s t`: `t` results from `s` by a (possibly empty) sequence
of further `allocate` calls. -/
inductive AllocSteps : Ipv6Allocator → Ipv6Allocator → Prop where
  | refl (s : Ipv6Allocator) : AllocSteps s s
  | step (s t : Ipv6Allocator) (id : PeerId) : AllocSteps s t → AllocSteps s (allocate t id).2

/-- Allocate sequentially for a list of requesters, collecting results. -/
def allocList (s : Ipv6Allocator) : List PeerId → List (Option Nat) × Ipv6Allocator
  | [] => ([], s)
  | id :: rest =>
    let r := allocate s id
    let rs := allocList r.2 rest
    (r.1 :: rs.1, rs.2)

/-! ## Specification-side predicates and proof helpers -/

/-- The probe sequence of the collision loop: the successive identifier
values `perturbIid` tests for membership in `used` (proof helper). -/
def perturbOrbit (iid salt : Nat) : Nat → List Nat
  | 0 => []
  | n+1 => iid :: perturbOrbit (w64 (iid + w64 (1 + salt))) (salt + 1) n

/-- Whether a `getifaddrs` entry carries an IPv6 address and an IPv6
netmask. -/
def entryIsIpv6Pair (e : IfEntry) : Bool :=
  match e.address, e.netmask with
  | some (.inet6 _), some (.inet6 _) => true
  | _, _ => false

/-- The entry's IPv6 address value (0 when absent). -/
def entryIpv6 (e : IfEntry) : Nat :=
  match e.address with
  | some (.inet6 ip) => ip
  | _ => 0

/-- The entry's IPv6 netmask value (0 when absent). -/
def entryMask (e : IfEntry) : Nat :=
  match e.netmask with
  | some (.inet6 m) => m
  | _ => 0

/-- Inclusion condition exactly as the claim words it: name not virtual,
both socket addresses IPv6, address globally scoped, and the netmask
converts to a network length of exactly 64. -/
def c8ClaimIncluded (e : IfEntry) : Bool :=
  !isVirtualIfaceName e.interface_name && entryIsIpv6Pair e
    && !(ipv6IsMulticast (entryIpv6 e) || ipv6IsLoopback (entryIpv6 e)
        || ipv6IsUnspecified (entryIpv6 e) || ipv6IsUniqueLocal (entryIpv6 e)
        || ipv6IsUnicastLinkLocal (entryIpv6 e))
    && maskToPrefixLen (entryMask e) == some 64

/-- Amended inclusion condition: as claimed, except that a netmask that
fails to convert (a non-contiguous mask) also passes, because the code
defaults a failed conversion to 64 (`unwrap_or(64)`). -/
def c8AmendedIncluded (e : IfEntry) : Bool :=
  !isVirtualIfaceName e.interface_name && entryIsIpv6Pair e
    && !(ipv6IsMulticast (entryIpv6 e) || ipv6IsLoopback (entryIpv6 e)
        || ipv6IsUnspecified (entryIpv6 e) || ipv6IsUniqueLocal (entryIpv6 e)
        || ipv6IsUnicastLinkLocal (entryIpv6 e))
    && (maskToPrefixLen (entryMask e) == some 64 || maskToPrefixLen (entryMask e) == none)

/-- Well-formedness of an entry as `getifaddrs` produces it: any carried
IPv6 address value is a 128-bit quantity. -/
def IfEntryWf (e : IfEntry) : Prop :=
  ∀ ip, e.address = some (SockAddrM.inet6 ip) → ip < 2 ^ 128

/-- A global-scope address inside `2001:db8::/64`, host id 1. -/
def sampleIp1 : Nat := 0x20010db8 * 2 ^ 96 + 1

/-- A global-scope address inside `2001:db8::/64`, host id 2. -/
def sampleIp2 : Nat := 0x20010db8 * 2 ^ 96 + 2

/-- The contiguous /64 netmask `ffff:ffff:ffff:ffff::`. -/
def sampleMask64 : Nat := 2 ^ 128 - 2 ^ 64

/-- A qualifying physical interface entry (`eth0`, global /64). -/
def sampleEntry1 : IfEntry := ⟨"eth0", some (.inet6 sampleIp1), some (.inet6 sampleMask64)⟩

/-- A second interface (`eth1`) carrying the same on-link /64 network. -/
def sampleEntry2 : IfEntry := ⟨"eth1", some (.inet6 sampleIp2), some (.inet6 sampleMask64)⟩

/-- An otherwise qualifying entry whose netmask `4000::` is not a valid
(contiguous) network mask, so it converts to no network length. -/
def badMaskEntry : IfEntry := ⟨"eth0", some (.inet6 sampleIp1), some (.inet6 (2 ^ 126))⟩

/-! # Verification

Helper lemmas first, then one theorem per claim (with witnesses and
counterexamples where required). -/

theorem w32_lt (n : Nat) : w32 n < 2 ^ 32 := Nat.mod_lt _ (by norm_num)

theorem w64_eq (n : Nat) : w64 n = n % 2 ^ 64 := by norm_num [w64]

theorem w64_lt (n : Nat) : w64 n < 2 ^ 64 := Nat.mod_lt _ (by norm_num)

theorem getD_lt_of_forall :
    ∀ (l : List Nat) (i B : Nat), (∀ x ∈ l, x < B) → 0 < B → l.getD i 0 < B
  | [], i, B, _, hB => by simpa using hB
  | x :: l, 0, B, h, _ => by simpa using h x (by simp)
  | x :: l, i+1, B, h, hB => by
    simpa using getD_lt_of_forall l i B (fun y hy => h y (by simp [hy])) hB

theorem shaCompressBlock_lt (hs block : List Nat) :
    ∀ x ∈ shaCompressBlock hs block, x < 2 ^ 32 := by
  intro x hx
  simp only [shaCompressBlock, List.mem_cons, List.not_mem_nil, or_false] at hx
  rcases hx with h | h | h | h | h | h | h | h <;> subst h <;> exact w32_lt _

theorem sha256Words_lt (msg : List Nat) : ∀ x ∈ sha256Words msg, x < 2 ^ 32 := by
  have h : ∀ (bs : List (List Nat)) (hs : List Nat), (∀ x ∈ hs, x < 2 ^ 32) →
      ∀ x ∈ bs.foldl shaCompressBlock hs, x < 2 ^ 32 := by
    intro bs
    induction bs with
    | nil => exact fun hs h x hx => h x hx
    | cons b bs ih => exact fun hs _ x hx => ih _ (shaCompressBlock_lt hs b) x hx
  exact h _ _ (by decide)

theorem lor_one_mod_two (x : Nat) : (x ||| 1) % 2 = 1 := by
  rw [Nat.mod_two_eq_one_iff_testBit_zero, Nat.testBit_or]
  simp

theorem lor_one_lt {x : Nat} (hx : x < 2 ^ 64) : x ||| 1 < 2 ^ 64 := by
  apply Nat.lt_pow_two_of_testBit
  intro i hi
  rw [Nat.testBit_or]
  have h1 : x.testBit i = false :=
    Nat.testBit_lt_two_pow (lt_of_lt_of_le hx (Nat.pow_le_pow_right (by norm_num) hi))
  have h2 : (1 : Nat).testBit i = false :=
    Nat.testBit_lt_two_pow (Nat.one_lt_two_pow (show i ≠ 0 by omega))
  simp [h1, h2]

theorem deriveIidBase_lt (r f : Nat) : deriveIidBase r f < 2 ^ 64 := by
  have h0 := getD_lt_of_forall (sha256Words (beBytes 4 r ++ beBytes 16 f)) 0 (2 ^ 32)
    (sha256Words_lt _) (by norm_num)
  have h1 := getD_lt_of_forall (sha256Words (beBytes 4 r ++ beBytes 16 f)) 1 (2 ^ 32)
    (sha256Words_lt _) (by norm_num)
  exact lor_one_lt (by omega)

theorem deriveIidBase_mod_two (r f : Nat) : deriveIidBase r f % 2 = 1 :=
  lor_one_mod_two _

theorem deriveIidBase_ne_zero (r f : Nat) : deriveIidBase r f ≠ 0 := by
  intro h
  have := deriveIidBase_mod_two r f
  rw [h] at this
  simp at this

theorem add_mod_ne {a j k M : Nat} (hj : j < M) (hk : k < M) (hne : j ≠ k) :
    (a + j) % M ≠ (a + k) % M := by
  intro h
  have h2 : j ≡ k [MOD M] := Nat.ModEq.add_left_cancel' a h
  unfold Nat.ModEq at h2
  rw [Nat.mod_eq_of_lt hj, Nat.mod_eq_of_lt hk] at h2
  exact hne h2

theorem mod_cancel_zero {y t M : Nat} (hy : y < M) (h : (y + t) % M = y) : t % M = 0 := by
  have h2 : t ≡ 0 [MOD M] := by
    have h3 : y + t ≡ y + 0 [MOD M] := by
      unfold Nat.ModEq
      rw [Nat.add_zero, Nat.mod_eq_of_lt hy]
      exact h
    exact Nat.ModEq.add_left_cancel' y h3
  simpa [Nat.ModEq] using h2

theorem buildAddr_mod (f : Nat) {iid : Nat} (h : iid < 2 ^ 64) : buildAddr f iid % 2 ^ 64 = iid := by
  have e : (65535 : Nat) = 2 ^ 16 - 1 := by norm_num
  simp only [buildAddr, fromSegs, segAt, e, Nat.and_pow_two_sub_one_eq_mod,
    Nat.shiftRight_eq_div_pow]
  omega

theorem buildAddr_div (f iid : Nat) (hf : f < 2 ^ 128) (h : iid < 2 ^ 64) :
    buildAddr f iid / 2 ^ 64 = f / 2 ^ 64 := by
  have e : (65535 : Nat) = 2 ^ 16 - 1 := by norm_num
  simp only [buildAddr, fromSegs, segAt, e, Nat.and_pow_two_sub_one_eq_mod,
    Nat.shiftRight_eq_div_pow]
  omega

theorem perturbIid_lt (used : List Nat) :
    ∀ (fuel iid salt : Nat), iid < 2 ^ 64 → perturbIid used iid salt fuel < 2 ^ 64
  | 0, iid, _, h => h
  | fuel+1, iid, salt, h => by
    simp only [perturbIid]
    split
    · exact perturbIid_lt used fuel _ _ (w64_lt _)
    · exact h

theorem perturbIid_of_not_mem (used : List Nat) (iid salt fuel : Nat) (h : iid ∉ used) :
    perturbIid used iid salt (fuel + 1) = iid := by
  simp [perturbIid, h]

theorem perturbOrbit_length : ∀ (n iid salt : Nat), (perturbOrbit iid salt n).length = n
  | 0, _, _ => rfl
  | n+1, iid, salt => by simp [perturbOrbit, perturbOrbit_length n]

theorem perturbIid_spec (used : List Nat) :
    ∀ (fuel iid salt : Nat),
      perturbIid used iid salt fuel ∉ used ∨ ∀ x ∈ perturbOrbit iid salt fuel, x ∈ used
  | 0, iid, salt => Or.inr (by simp [perturbOrbit])
  | fuel+1, iid, salt => by
    by_cases h : iid ∈ used
    · simp only [perturbIid, if_pos h]
      rcases perturbIid_spec used fuel (w64 (iid + w64 (1 + salt))) (salt + 1) with hl | hr
      · exact Or.inl hl
      · refine Or.inr fun x hx => ?_
        rw [perturbOrbit] at hx
        rcases List.mem_cons.1 hx with rfl | hx2
        · exact h
        · exact hr x hx2
    · simp only [perturbIid, if_neg h]
      exact Or.inl h

theorem perturbOrbit_mem : ∀ (n y salt x : Nat), y < 2 ^ 64 → x ∈ perturbOrbit y salt n →
    ∃ d, d ≤ n * (salt + n) ∧ x = (y + d) % 2 ^ 64
  | 0, y, salt, x, _, hx => by simp [perturbOrbit] at hx
  | n+1, y, salt, x, hy, hx => by
    rw [perturbOrbit] at hx
    rcases List.mem_cons.1 hx with rfl | hx2
    · exact ⟨0, Nat.zero_le _, by rw [Nat.add_zero, Nat.mod_eq_of_lt hy]⟩
    · obtain ⟨d', hd', hx'⟩ := perturbOrbit_mem n _ (salt + 1) x (w64_lt _) hx2
      refine ⟨w64 (1 + salt) + d', ?_, ?_⟩
      · have h1 : w64 (1 + salt) ≤ 1 + salt := Nat.mod_le _ _
        have h2 : (n + 1) * (salt + (n + 1)) = n * (salt + 1 + n) + (salt + n + 1) := by ring
        rw [h2]
        omega
      · rw [hx', w64_eq, w64_eq, Nat.mod_add_mod, Nat.add_assoc]

theorem perturbOrbit_nodup : ∀ (n y salt : Nat), y < 2 ^ 64 → n + salt ≤ 2 ^ 31 →
    (perturbOrbit y salt n).Nodup
  | 0, _, _, _, _ => by simp [perturbOrbit]
  | n+1, y, salt, hy, hb => by
    rw [perturbOrbit, List.nodup_cons]
    refine ⟨fun hmem => ?_, perturbOrbit_nodup n _ (salt + 1) (w64_lt _) (by omega)⟩
    obtain ⟨d', hd', hx⟩ := perturbOrbit_mem n _ (salt + 1) y (w64_lt _) hmem
    have hmul : n * (salt + 1 + n) ≤ 2 ^ 31 * 2 ^ 31 :=
      Nat.mul_le_mul (by omega) (by omega)
    have hw : w64 (1 + salt) = 1 + salt := by
      rw [w64_eq]
      exact Nat.mod_eq_of_lt (by omega)
    rw [w64_eq, hw] at hx
    have hyx : (y + (1 + salt + d')) % 2 ^ 64 = y := by
      rw [← Nat.add_assoc, ← Nat.mod_add_mod]
      exact hx.symm
    have hz := mod_cancel_zero hy hyx
    rw [Nat.mod_eq_of_lt (by omega)] at hz
    omega

theorem perturb_not_mem {used : List Nat} {iid salt : Nat} (hiid : iid < 2 ^ 64)
    (hb : used.length + 1 + salt ≤ 2 ^ 31) :
    perturbIid used iid salt (used.length + 1) ∉ used := by
  rcases perturbIid_spec used (used.length + 1) iid salt with h | hall
  · exact h
  · exfalso
    have hnd : (perturbOrbit iid salt (used.length + 1)).Nodup :=
      perturbOrbit_nodup _ _ _ hiid hb
    have hlen : (perturbOrbit iid salt (used.length + 1)).length = used.length + 1 :=
      perturbOrbit_length _ _ _
    have hcard1 : (perturbOrbit iid salt (used.length + 1)).toFinset.card = used.length + 1 := by
      rw [List.toFinset_card_of_nodup hnd, hlen]
    have hsub : (perturbOrbit iid salt (used.length + 1)).toFinset ⊆ used.toFinset := by
      intro x hx
      rw [List.mem_toFinset] at hx ⊢
      exact hall x hx
    have hcard2 := Finset.card_le_card hsub
    have hcard3 := used.toFinset_card_le
    omega

theorem allocGo_map_fst (requester : Nat) :
    ∀ (l : List (String × Ipv6InetM)) (used : List Nat),
      (allocGo requester l used).map Prod.fst = l.map Prod.fst
  | [], _ => rfl
  | (iface, pfx) :: rest, used => by
    simp [allocGo, allocGo_map_fst requester rest]

theorem allocGo_length (requester : Nat) (l : List (String × Ipv6InetM)) (used : List Nat) :
    (allocGo requester l used).length = l.length := by
  rw [← List.length_map (allocGo requester l used) Prod.fst, allocGo_map_fst,
    List.length_map]

theorem allocGo_net_length (requester : Nat) :
    ∀ (l : List (String × Ipv6InetM)) (used : List Nat),
      ∀ p ∈ allocGo requester l used, p.2.network_length = 128
  | [], _ => by simp [allocGo]
  | (iface, pfx) :: rest, used => by
    intro p hp
    rw [allocGo] at hp
    rcases List.mem_cons.1 hp with rfl | hp2
    · rfl
    · exact allocGo_net_length requester rest _ p hp2

theorem allocGo_iids (requester : Nat) :
    ∀ (l : List (String × Ipv6InetM)) (used : List Nat),
      used.length + l.length ≤ 2 ^ 31 →
      ((allocGo requester l used).map fun p => p.2.address % 2 ^ 64).Nodup
      ∧ ∀ x ∈ (allocGo requester l used).map fun p => p.2.address % 2 ^ 64, x ∉ used
  | [], used, _ => by simp [allocGo]
  | (iface, pfx) :: rest, used, hb => by
    have hbase : deriveIidBase requester pfx.firstAddress < 2 ^ 64 := deriveIidBase_lt _ _
    have hnotmem : perturbIid used (deriveIidBase requester pfx.firstAddress) 0
        (used.length + 1) ∉ used :=
      perturb_not_mem hbase (by simp at hb; omega)
    have hlt : perturbIid used (deriveIidBase requester pfx.firstAddress) 0
        (used.length + 1) < 2 ^ 64 :=
      perturbIid_lt used _ _ _ hbase
    have hmod := buildAddr_mod pfx.firstAddress hlt
    obtain ⟨ihnd, ihnot⟩ := allocGo_iids requester rest
      (perturbIid used (deriveIidBase requester pfx.firstAddress) 0 (used.length + 1) :: used)
      (by simp at hb ⊢; omega)
    rw [allocGo]
    refine ⟨?_, ?_⟩
    · rw [List.map_cons, List.nodup_cons, hmod]
      refine ⟨fun hmem => ?_, ihnd⟩
      exact ihnot _ hmem (List.mem_cons_self _ _)
    · intro x hx
      rw [List.map_cons] at hx
      rcases List.mem_cons.1 hx with rfl | hx2
      · rw [hmod]; exact hnotmem
      · intro hxu
        exact ihnot x hx2 (List.mem_cons_of_mem _ hxu)

theorem allocGo_addr_nodup (requester : Nat) (l : List (String × Ipv6InetM))
    (hb : l.length ≤ 2 ^ 31) :
    ((allocGo requester l []).map fun p => p.2.address).Nodup := by
  have h := (allocGo_iids requester l [] (by simpa using hb)).1
  have he : ((allocGo requester l []).map fun p => p.2.address % 2 ^ 64) =
      ((allocGo requester l []).map fun p => p.2.address).map fun a => a % 2 ^ 64 := by
    rw [List.map_map]; rfl
  rw [he] at h
  exact h.of_map _

theorem allocOnPrefixes_length (requester count : Nat) (pfxs : List (String × Ipv6InetM))
    (hne : pfxs ≠ []) (hd : pfxs.length < 2 ^ 32) :
    (allocOnPrefixes requester count pfxs).length =
      if count = 0 then pfxs.length else min count pfxs.length := by
  rw [allocOnPrefixes, if_neg (by simpa [List.isEmpty_iff] using hne)]
  have hmod : pfxs.length % 4294967296 = pfxs.length :=
    Nat.mod_eq_of_lt (by norm_num at hd ⊢; omega)
  rw [hmod, allocGo_length, List.length_take]
  rcases Nat.eq_zero_or_pos count with rfl | hpos
  · simp
  · rw [if_neg (by omega), Nat.min_eq_left (Nat.min_le_right _ _)]


/-! ### Allocator lemmas -/

theorem findAssigned_mem : ∀ {l : List (PeerId × Nat)} {id v : Nat},
    findAssigned l id = some v → (id, v) ∈ l
  | [], id, v, h => by simp [findAssigned] at h
  | (k, w) :: rest, id, v, h => by
    rw [findAssigned] at h
    by_cases hk : k = id
    · rw [if_pos hk] at h
      rw [← hk, ← Option.some_inj.1 h]
      exact List.mem_cons_self _ _
    · rw [if_neg hk] at h
      exact List.mem_cons_of_mem _ (findAssigned_mem h)

theorem findAssigned_val_mem {l : List (PeerId × Nat)} {id v : Nat}
    (h : findAssigned l id = some v) : v ∈ l.map Prod.snd :=
  List.mem_map.2 ⟨(id, v), findAssigned_mem h, rfl⟩

theorem findAssigned_isSome_of_mem : ∀ {l : List (PeerId × Nat)} {id : Nat},
    id ∈ l.map Prod.fst → ∃ v, findAssigned l id = some v
  | [], id, h => by simp at h
  | (k, w) :: rest, id, h => by
    by_cases hk : k = id
    · exact ⟨w, by rw [findAssigned, if_pos hk]⟩
    · simp only [List.map_cons, List.mem_cons] at h
      rcases h with h | h
      · exact absurd h.symm hk
      · obtain ⟨v, hv⟩ := findAssigned_isSome_of_mem h
        exact ⟨v, by rw [findAssigned, if_neg hk]; exact hv⟩

theorem findAssigned_not_mem_of_none {l : List (PeerId × Nat)} {id : Nat}
    (h : findAssigned l id = none) : id ∉ l.map Prod.fst := by
  intro hmem
  obtain ⟨v, hv⟩ := findAssigned_isSome_of_mem hmem
  rw [hv] at h
  cases h

theorem findAssigned_some_head (id v : Nat) (l : List (PeerId × Nat)) :
    findAssigned ((id, v) :: l) id = some v := by
  rw [findAssigned, if_pos rfl]

theorem findAssigned_cons_ne (k id v : Nat) (l : List (PeerId × Nat)) (h : k ≠ id) :
    findAssigned ((k, v) :: l) id = findAssigned l id := by
  rw [findAssigned, if_neg h]

theorem findAssigned_inj : ∀ {l : List (PeerId × Nat)} {k1 k2 v1 v2 : Nat},
    (l.map Prod.fst).Nodup → (l.map Prod.snd).Nodup →
    findAssigned l k1 = some v1 → findAssigned l k2 = some v2 → k1 ≠ k2 → v1 ≠ v2
  | [], k1, k2, v1, v2, _, _, h1, _, _ => by simp [findAssigned] at h1
  | (k, w) :: rest, k1, k2, v1, v2, hk, hv, h1, h2, hne => by
    simp only [List.map_cons, List.nodup_cons] at hk hv
    rw [findAssigned] at h1 h2
    by_cases e1 : k = k1
    · rw [if_pos e1] at h1
      rw [if_neg (fun e2 => hne (e1.symm.trans e2))] at h2
      have hv2 : v2 ∈ rest.map Prod.snd := findAssigned_val_mem h2
      intro he
      rw [Option.some_inj.1 h1, he] at hv
      exact hv.1 hv2
    · rw [if_neg e1] at h1
      by_cases e2 : k = k2
      · rw [if_pos e2] at h2
        have hv1 : v1 ∈ rest.map Prod.snd := findAssigned_val_mem h1
        intro he
        rw [Option.some_inj.1 h2, ← he] at hv
        exact hv.1 hv1
      · rw [if_neg e2] at h2
        exact findAssigned_inj hk.2 hv.2 h1 h2 hne

/-- The allocator state invariant maintained by `allocate`: distinct
requesters, distinct addresses, every address of the form
`base + j` with `1 ≤ j <` cursor, and the cursor within capacity. -/
def AllocInv (s : Ipv6Allocator) : Prop :=
  (s.assigned.map Prod.fst).Nodup ∧
  (s.assigned.map Prod.snd).Nodup ∧
  (∀ p ∈ s.assigned, ∃ j, 1 ≤ j ∧ j < s.next ∧ p.2 = (s.pfx.address + j) % 2 ^ 128) ∧
  1 ≤ s.next ∧ s.next ≤ 2 ^ (128 - s.pfx.network_length)

theorem allocate_pfx (s : Ipv6Allocator) (id : PeerId) : (allocate s id).2.pfx = s.pfx := by
  cases hc : allocateCached s id with
  | none =>
    by_cases hge : s.next ≥ 2 ^ (128 - s.pfx.network_length)
    · simp only [allocate, hc, allocateLocked, if_pos hge]
    · simp only [allocate, hc, allocateLocked, if_neg hge]
  | some a => simp only [allocate, hc]

theorem allocate_of_cached {s : Ipv6Allocator} {id : PeerId} {a : Nat}
    (h : findAssigned s.assigned id = some a) : allocate s id = (some a, s) := by
  rw [allocate, allocateCached, h]

theorem allocate_lookup_of_some {s : Ipv6Allocator} {id : PeerId} {a : Nat}
    {s' : Ipv6Allocator} (h : allocate s id = (some a, s')) :
    findAssigned s'.assigned id = some a := by
  cases hc : allocateCached s id with
  | some b =>
    rw [allocate, hc] at h
    injection h with h1 h2
    rw [← h2, ← h1]
    exact hc
  | none =>
    by_cases hge : s.next ≥ 2 ^ (128 - s.pfx.network_length)
    · rw [allocate, hc, allocateLocked] at h
      rw [if_pos hge] at h
      injection h with h1 h2
      cases h1
    · rw [allocate, hc, allocateLocked] at h
      rw [if_neg hge] at h
      injection h with h1 h2
      rw [← h2, ← Option.some_inj.1 h1]
      exact findAssigned_some_head _ _ _

theorem allocate_preserves_lookup {s : Ipv6Allocator} {k : PeerId} {v : Nat}
    (id : PeerId) (h : findAssigned s.assigned k = some v) :
    findAssigned (allocate s id).2.assigned k = some v := by
  cases hc : allocateCached s id with
  | some b => simp only [allocate, hc]; exact h
  | none =>
    by_cases hge : s.next ≥ 2 ^ (128 - s.pfx.network_length)
    · simp only [allocate, hc, allocateLocked, if_pos hge]
      exact h
    · simp only [allocate, hc, allocateLocked, if_neg hge]
      have hne : id ≠ k := by
        intro he
        rw [allocateCached, he, h] at hc
        cases hc
      rw [findAssigned_cons_ne _ _ _ _ hne]
      exact h

theorem steps_preserves_lookup {s t : Ipv6Allocator} {k : PeerId} {v : Nat}
    (hst : AllocSteps s t) (h : findAssigned s.assigned k = some v) :
    findAssigned t.assigned k = some v := by
  induction hst with
  | refl => exact h
  | step t id hst ih => exact allocate_preserves_lookup id ih

theorem steps_pfx {s t : Ipv6Allocator} (hst : AllocSteps s t) : t.pfx = s.pfx := by
  induction hst with
  | refl => rfl
  | step t id hst ih => rw [allocate_pfx, ih]

theorem allocInv_preserved {s : Ipv6Allocator} (id : PeerId) (h : AllocInv s) :
    AllocInv (allocate s id).2 := by
  obtain ⟨hk, hv, hj, h1, h2⟩ := h
  cases hc : allocateCached s id with
  | some b => simp only [allocate, hc]; exact ⟨hk, hv, hj, h1, h2⟩
  | none =>
    by_cases hge : s.next ≥ 2 ^ (128 - s.pfx.network_length)
    · simp only [allocate, hc, allocateLocked, if_pos hge]
      exact ⟨hk, hv, hj, h1, h2⟩
    · simp only [allocate, hc, allocateLocked, if_neg hge]
      have hlt2 : s.next < 2 ^ (128 - s.pfx.network_length) := Nat.lt_of_not_le hge
      have hnext128 : s.next < 2 ^ 128 :=
        lt_of_lt_of_le hlt2 (Nat.pow_le_pow_right (by norm_num) (Nat.sub_le _ _))
      have hid : id ∉ s.assigned.map Prod.fst := by
        rw [allocateCached] at hc
        exact findAssigned_not_mem_of_none hc
      refine ⟨?_, ?_, ?_, ?_, ?_⟩
      · simp only [List.map_cons, List.nodup_cons]
        exact ⟨hid, hk⟩
      · simp only [List.map_cons, List.nodup_cons]
        refine ⟨fun hmem => ?_, hv⟩
        obtain ⟨p, hp, hpe⟩ := List.mem_map.1 hmem
        obtain ⟨j, hj1, hj2, hj3⟩ := hj p hp
        have he : (s.pfx.address + j) % 2 ^ 128 = (s.pfx.address + s.next) % 2 ^ 128 := by
          rw [← hj3, hpe]
        exact add_mod_ne (lt_trans hj2 hnext128) hnext128 (Nat.ne_of_lt hj2) he
      · intro p hp
        rcases List.mem_cons.1 hp with rfl | hp2
        · exact ⟨s.next, h1, by simp, rfl⟩
        · obtain ⟨j, hj1, hj2, hj3⟩ := hj p hp2
          exact ⟨j, hj1, by simp; omega, hj3⟩
      · simp
      · simp
        omega

theorem reachable_inv {s : Ipv6Allocator} (h : Reachable s) : AllocInv s := by
  induction h with
  | init c => exact ⟨by simp [Ipv6Allocator.new], by simp [Ipv6Allocator.new],
      by simp [Ipv6Allocator.new], by simp [Ipv6Allocator.new],
      Nat.one_le_two_pow⟩
  | step s id hs ih => exact allocInv_preserved id ih

theorem steps_inv {s t : Ipv6Allocator} (hst : AllocSteps s t) (h : AllocInv s) : AllocInv t := by
  induction hst with
  | refl => exact h
  | step t id hst ih => exact allocInv_preserved id ih


theorem allocList_run : ∀ (ids : List PeerId) (s : Ipv6Allocator),
    ids.Nodup → (∀ id ∈ ids, findAssigned s.assigned id = none) →
    s.next + ids.length ≤ 2 ^ (128 - s.pfx.network_length) →
    ((allocList s ids).1.all Option.isSome) = true
    ∧ (allocList s ids).2.next = s.next + ids.length
    ∧ (allocList s ids).2.pfx = s.pfx
    ∧ ∀ k, k ∉ ids → findAssigned (allocList s ids).2.assigned k = findAssigned s.assigned k
  | [], s, _, _, _ => by simp [allocList]
  | id :: rest, s, hnd, hfresh, hcap => by
    have hcid : findAssigned s.assigned id = none := hfresh id (List.mem_cons_self _ _)
    have hge : ¬ s.next ≥ 2 ^ (128 - s.pfx.network_length) := by
      simp only [List.length_cons] at hcap
      omega
    have hstep : allocate s id = (some ((s.pfx.address + s.next) % 2 ^ 128),
        ⟨s.pfx, s.next + 1, (id, (s.pfx.address + s.next) % 2 ^ 128) :: s.assigned⟩) := by
      rw [allocate, allocateCached, hcid, allocateLocked, if_neg hge]
    rw [List.nodup_cons] at hnd
    obtain ⟨ih1, ih2, ih3, ih4⟩ := allocList_run rest
      ⟨s.pfx, s.next + 1, (id, (s.pfx.address + s.next) % 2 ^ 128) :: s.assigned⟩
      hnd.2
      (by
        intro id2 hid2
        have hne : id ≠ id2 := fun he => hnd.1 (he ▸ hid2)
        dsimp only
        rw [findAssigned_cons_ne _ _ _ _ hne]
        exact hfresh id2 (List.mem_cons_of_mem _ hid2))
      (by
        dsimp only
        simp only [List.length_cons] at hcap
        omega)
    refine ⟨?_, ?_, ?_, ?_⟩
    · simp only [allocList, hstep, List.all_cons, Option.isSome_some, Bool.true_and]
      exact ih1
    · simp only [allocList, hstep, ih2, List.length_cons]
      omega
    · simp only [allocList, hstep, ih3]
    · intro k hk
      simp only [List.mem_cons, not_or] at hk
      simp only [allocList, hstep, ih4 k hk.2]
      rw [findAssigned_cons_ne _ _ _ _ (fun he => hk.1 he.symm)]

theorem Ipv6InetM.firstAddress_le (p : Ipv6InetM) : p.firstAddress ≤ p.address :=
  Nat.sub_le _ _

theorem entryOnlink_inv {e : IfEntry} {q : String × Ipv6InetM}
    (h : entryOnlink e = some q) :
    ∃ ip, e.address = some (SockAddrM.inet6 ip) ∧ q = (e.interface_name, ⟨ip, 64⟩) := by
  rw [entryOnlink] at h
  split at h
  · cases h
  · split at h
    · rename_i ip mask heqa heqm
      split at h
      · cases h
      · split at h
        · cases h
        · exact ⟨ip, heqa, (Option.some_inj.1 h).symm⟩
    · cases h

theorem allocGo_top64 (requester : Nat) :
    ∀ (l : List (String × Ipv6InetM)) (used : List Nat),
      (∀ p ∈ l, p.2.firstAddress < 2 ^ 128) →
      (allocGo requester l used).map (fun p => p.2.address / 2 ^ 64)
        = l.map fun p => p.2.firstAddress / 2 ^ 64
  | [], _, _ => rfl
  | (iface, pfx) :: rest, used, hwf => by
    rw [allocGo, List.map_cons, List.map_cons]
    have h1 : (Ipv6InetM.mk (buildAddr pfx.firstAddress
        (perturbIid used (deriveIidBase requester pfx.firstAddress) 0 (used.length + 1))) 128).address
        / 2 ^ 64 = pfx.firstAddress / 2 ^ 64 :=
      buildAddr_div _ _ (hwf _ (List.mem_cons_self _ _))
        (perturbIid_lt _ _ _ _ (deriveIidBase_lt _ _))
    rw [h1, allocGo_top64 requester rest _ fun p hp => hwf p (List.mem_cons_of_mem _ hp)]


theorem steps_reachable {s t : Ipv6Allocator} (hs : Reachable s) (hst : AllocSteps s t) :
    Reachable t := by
  induction hst with
  | refl => exact hs
  | step t id hst ih => exact Reachable.step _ id ih

theorem entryOnlink_isSome_eq (e : IfEntry) : (entryOnlink e).isSome = c8AmendedIncluded e := by
  obtain ⟨name, addr, mask⟩ := e
  cases hv : isVirtualIfaceName name with
  | true => simp [entryOnlink, c8AmendedIncluded, hv]
  | false =>
    rcases addr with _ | sa
    · simp [entryOnlink, c8AmendedIncluded, entryIsIpv6Pair, hv]
    · rcases sa with ip4 | ip | _
      · simp [entryOnlink, c8AmendedIncluded, entryIsIpv6Pair, hv]
      · rcases mask with _ | sm
        · simp [entryOnlink, c8AmendedIncluded, entryIsIpv6Pair, hv]
        · rcases sm with m4 | m | _
          · simp [entryOnlink, c8AmendedIncluded, entryIsIpv6Pair, hv]
          · simp only [entryOnlink, c8AmendedIncluded, entryIsIpv6Pair, entryIpv6, entryMask,
              hv, if_neg Bool.false_ne_true, Bool.not_false, Bool.true_and]
            by_cases hs : (ipv6IsMulticast ip || ipv6IsLoopback ip || ipv6IsUnspecified ip
                || ipv6IsUniqueLocal ip || ipv6IsUnicastLinkLocal ip) = true
            · simp [hs]
            · rw [if_neg hs]
              rw [Bool.not_eq_true] at hs
              rw [hs]
              simp only [Bool.not_false, Bool.true_and]
              cases hml : maskToPrefixLen m with
              | none => simp [hml]
              | some p =>
                by_cases hp : p = 64
                · simp [hml, hp]
                · simp [hml, hp]
          · simp [entryOnlink, c8AmendedIncluded, entryIsIpv6Pair, hv]
      · simp [entryOnlink, c8AmendedIncluded, entryIsIpv6Pair, hv]

/-- Claim C8, counterexample: an entry whose netmask is non-contiguous
(so it converts to no network length at all) is nevertheless included by
`list_onlink_prefixes`, because `ip_mask_to_prefix(mask).unwrap_or(64)`
defaults the failed conversion to 64.  The claim's inclusion condition
(the netmask converts to exactly 64) is false for this entry. -/
theorem onlink_filter_invalid_mask :
    (entryOnlink badMaskEntry).isSome = true ∧ c8ClaimIncluded badMaskEntry = false := by
  constructor
  · decide
  · decide

/-- Claim C8 (amended): an enumerated interface entry is included iff its
name avoids the virtual-interface name set, both socket addresses are
IPv6, the address is globally scoped, and the netmask either converts to
network length exactly 64 or fails to convert (the code defaults failed
conversions to 64).  In particular `docker0` entries are never included,
and unique-local or link-local addresses are never included. -/
theorem onlink_filter_iff :
    (∀ e : IfEntry, (entryOnlink e).isSome = c8AmendedIncluded e)
    ∧ (∀ entries : List IfEntry, list_onlink_prefixes entries = entries.filterMap entryOnlink)
    ∧ (∀ e : IfEntry, e.interface_name = "docker0" → entryOnlink e = none)
    ∧ (∀ (e : IfEntry) (ip : Nat), e.address = some (SockAddrM.inet6 ip) →
        (ipv6IsUniqueLocal ip || ipv6IsUnicastLinkLocal ip) = true → entryOnlink e = none) := by
  refine ⟨entryOnlink_isSome_eq, fun _ => rfl, ?_, ?_⟩
  · intro e h
    rw [entryOnlink, if_pos (show isVirtualIfaceName e.interface_name = true by rw [h]; decide)]
  · intro e ip hip hsc
    obtain ⟨name, addr, mask⟩ := e
    simp only at hip
    subst hip
    have hcond : (ipv6IsMulticast ip || ipv6IsLoopback ip || ipv6IsUnspecified ip
        || ipv6IsUniqueLocal ip || ipv6IsUnicastLinkLocal ip) = true := by
      simp only [Bool.or_eq_true] at hsc ⊢
      tauto
    by_cases hv : isVirtualIfaceName name = true
    · rw [entryOnlink, if_pos hv]
    · rcases mask with _ | sm
      · rw [entryOnlink, if_neg hv]
      · rcases sm with m4 | m | _
        · rw [entryOnlink, if_neg hv]
        · simp only [entryOnlink, if_neg hv]
          rw [if_pos hcond]
        · rw [entryOnlink, if_neg hv]

/-- Witness for the amended claim C8 at concrete entries: a `docker0`
entry is rejected, a qualifying `eth0` entry satisfies the inclusion
equivalence, and a link-local address is rejected. -/
theorem onlink_filter_iff_witness :
    entryOnlink ⟨"docker0", some (.inet6 sampleIp1), some (.inet6 sampleMask64)⟩ = none
    ∧ (entryOnlink sampleEntry1).isSome = c8AmendedIncluded sampleEntry1
    ∧ entryOnlink ⟨"eth0", some (.inet6 (0xfe80 * 2 ^ 112 + 1)), some (.inet6 sampleMask64)⟩
        = none := by
  refine ⟨onlink_filter_iff.2.2.1 _ rfl, onlink_filter_iff.1 sampleEntry1,
    onlink_filter_iff.2.2.2 _ (0xfe80 * 2 ^ 112 + 1) rfl (by decide)⟩

/-- Claim C9: the policy-routing table id equals
`50000 + (last 16-bit segment mod 4096)` (the `u16` big-endian byte
round-trip is the identity) and always lies in `[50000, 54095]`. -/
theorem table_id_formula_range (addr : Nat) :
    tableIdForAddr addr = 50000 + segAt addr 7 % 4096
    ∧ 50000 ≤ tableIdForAddr addr ∧ tableIdForAddr addr ≤ 54095 := by
  have hs : segAt addr 7 < 65536 := Nat.mod_lt _ (by norm_num)
  have hround : u16OfBeBytes (u16BeBytes (segAt addr 7)) = segAt addr 7 := by
    simp only [u16OfBeBytes, u16BeBytes, List.getD_cons_zero, List.getD_cons_succ,
      Nat.shiftRight_eq_div_pow]
    omega
  have h4 : segAt addr 7 % 4096 < 4096 := Nat.mod_lt _ (by norm_num)
  unfold tableIdForAddr
  rw [hround]
  exact ⟨rfl, by omega, by omega⟩

/-- Claim C4 (evidence of the check-then-act race): on a fresh `::/64`
allocator two first-time calls for the same peer 5, interleaved as
cache-check A, cache-check B, locked-section A, locked-section B — which
the code permits, since the `assigned` read happens before the `next`
mutex is taken — return the two different addresses `::1` and `::2`.
`allocate` is exactly the cache check followed by the locked section, so
the claimed atomic unit does not exist in the code. -/
theorem allocate_check_then_act_race :
    allocateCached (Ipv6Allocator.new ⟨0, 64⟩) 5 = none
    ∧ allocate (Ipv6Allocator.new ⟨0, 64⟩) 5 = allocateLocked (Ipv6Allocator.new ⟨0, 64⟩) 5
    ∧ (allocateLocked (Ipv6Allocator.new ⟨0, 64⟩) 5).1 = some 1
    ∧ (allocateLocked (allocateLocked (Ipv6Allocator.new ⟨0, 64⟩) 5).2 5).1 = some 2
    ∧ some (1 : Nat) ≠ some (2 : Nat) := by
  refine ⟨rfl, rfl, rfl, rfl, by decide⟩


set_option maxRecDepth 100000 in
/-- Claim C6, counterexample: with the same on-link /64 on two
interfaces (`eth0` and `eth1` both carrying `2001:db8::/64`), the two
derived identifiers collide, the second goes through the perturbation
loop (`iid.wrapping_add(1 + salt)`), and the finally used identifier is
even: the address parities of the batch are `[1, 0]`, so a finally used
host identifier has its low bit 0, contradicting the claim. -/
theorem perturbed_iid_low_bit_zero :
    (alloc_addrs_for_peer [sampleEntry1, sampleEntry2] 7 0).map (fun p => p.2.address % 2)
      = [1, 0] := by decide

/-- Claim C6 (amended): every 64-bit host identifier as derived — the
SHA-256-based value with `iid |= 1` applied, before any in-batch
collision perturbation — has its low bit set to 1 and is never the
all-zero identifier; when the derived value collides with nothing in the
batch's used set, it is also the finally used identifier. -/
theorem derived_iid_odd (requester firstAddr salt : Nat) (used : List Nat)
    (h : deriveIidBase requester firstAddr ∉ used) :
    perturbIid used (deriveIidBase requester firstAddr) salt (used.length + 1)
      = deriveIidBase requester firstAddr
    ∧ deriveIidBase requester firstAddr % 2 = 1
    ∧ deriveIidBase requester firstAddr ≠ 0 :=
  ⟨perturbIid_of_not_mem _ _ _ _ h, deriveIidBase_mod_two _ _, deriveIidBase_ne_zero _ _⟩

/-- Witness for the amended claim C6 at requester 7 and the
`2001:db8::/64` base address with an empty used set. -/
theorem derived_iid_odd_witness :
    perturbIid [] (deriveIidBase 7 (0x20010db8 * 2 ^ 96)) 0 1
      = deriveIidBase 7 (0x20010db8 * 2 ^ 96)
    ∧ deriveIidBase 7 (0x20010db8 * 2 ^ 96) % 2 = 1
    ∧ deriveIidBase 7 (0x20010db8 * 2 ^ 96) ≠ 0 :=
  derived_iid_odd 7 (0x20010db8 * 2 ^ 96) 0 [] (by simp)

/-- Claim C5: within one allocation batch the produced `/128` addresses
are pairwise distinct, for every requester, every requested count and
every discovered prefix list (duplicate /64 networks included) of
realistic length (at most `2 ^ 31` prefixes; the in-batch probe
sequence `iid + 1, iid + 3, iid + 6, …` is then collision-free modulo
`2 ^ 64`, which makes the unbounded Rust loop terminate within
`used.length + 1` probes, as the fuelled model does). -/
theorem alloc_batch_addrs_distinct (requester count : Nat)
    (pfxs : List (String × Ipv6InetM)) (hlen : pfxs.length ≤ 2 ^ 31) :
    ((allocOnPrefixes requester count pfxs).map fun p => p.2.address).Nodup := by
  rw [allocOnPrefixes]
  by_cases he : pfxs.isEmpty
  · rw [if_pos he]
    simp
  · rw [if_neg he]
    refine allocGo_addr_nodup requester _ ?_
    rw [List.length_take]
    exact le_trans (Nat.min_le_right _ _) hlen

/-- Witness for claim C5: a batch over a duplicated `2001:db8::/64`
network (the collision-perturbation path) yields distinct addresses. -/
theorem alloc_batch_addrs_distinct_witness :
    ((allocOnPrefixes 7 0 [("eth0", (⟨sampleIp1, 64⟩ : Ipv6InetM)),
        ("eth1", (⟨sampleIp1, 64⟩ : Ipv6InetM))]).map fun p => p.2.address).Nodup :=
  alloc_batch_addrs_distinct 7 0 _ (by norm_num)

/-- Claim C2: on any reachable allocator state, once `allocate` has
returned an address for a requester, every later `allocate` for the same
requester returns the same address (idempotence), and any later
successful `allocate` for a different requester returns a different
address (injectivity). -/
theorem allocate_idempotent_injective (s : Ipv6Allocator) (hs : Reachable s)
    (id1 : PeerId) (a1 : Nat) (s1 : Ipv6Allocator) (h1 : allocate s id1 = (some a1, s1))
    (s2 : Ipv6Allocator) (hsteps : AllocSteps s1 s2) :
    (allocate s2 id1).1 = some a1
    ∧ ∀ (id2 : PeerId) (a2 : Nat) (s3 : Ipv6Allocator),
        id2 ≠ id1 → allocate s2 id2 = (some a2, s3) → a2 ≠ a1 := by
  have hl1 : findAssigned s1.assigned id1 = some a1 := allocate_lookup_of_some h1
  have hl2 : findAssigned s2.assigned id1 = some a1 := steps_preserves_lookup hsteps hl1
  have hreach1 : Reachable s1 := by
    have hr := Reachable.step s id1 hs
    have he : (allocate s id1).2 = s1 := by rw [h1]
    rwa [he] at hr
  have hinv2 : AllocInv (s2 : Ipv6Allocator) := reachable_inv (steps_reachable hreach1 hsteps)
  constructor
  · rw [allocate_of_cached hl2]
  · intro id2 a2 s3 hne h2
    cases hc : allocateCached s2 id2 with
    | some b =>
      rw [allocate, hc] at h2
      injection h2 with h2a h2b
      rw [allocateCached] at hc
      obtain rfl : b = a2 := Option.some_inj.1 h2a
      exact findAssigned_inj hinv2.1 hinv2.2.1 hc hl2 hne
    | none =>
      by_cases hge : s2.next ≥ 2 ^ (128 - s2.pfx.network_length)
      · rw [allocate, hc, allocateLocked, if_pos hge] at h2
        injection h2 with h2a h2b
        cases h2a
      · rw [allocate, hc, allocateLocked, if_neg hge] at h2
        injection h2 with h2a h2b
        obtain ⟨j, hj1, hj2, hj3⟩ := hinv2.2.2.1 _ (findAssigned_mem hl2)
        dsimp only at hj3
        have hnext128 : s2.next < 2 ^ 128 :=
          lt_of_lt_of_le (Nat.lt_of_not_le hge)
            (Nat.pow_le_pow_right (by norm_num) (Nat.sub_le _ _))
        obtain rfl : (s2.pfx.address + s2.next) % 2 ^ 128 = a2 := Option.some_inj.1 h2a
        rw [hj3]
        exact add_mod_ne hnext128 (lt_trans hj2 hnext128) (fun he2 => by omega)

/-- Witness for claim C2: on a fresh `::/64` allocator, peer 5 receives
`::1`; a second call returns `::1` again, and peer 6 receives `::2 ≠ ::1`. -/
theorem allocate_idempotent_injective_witness :
    (allocate (⟨⟨0, 64⟩, 2, [(5, 1)]⟩ : Ipv6Allocator) 5).1 = some 1 ∧ (2 : Nat) ≠ 1 := by
  have h := allocate_idempotent_injective (Ipv6Allocator.new ⟨0, 64⟩) (Reachable.init _)
    5 1 ⟨⟨0, 64⟩, 2, [(5, 1)]⟩ (by decide) ⟨⟨0, 64⟩, 2, [(5, 1)]⟩ (AllocSteps.refl _)
  exact ⟨h.1, h.2 6 2 ⟨⟨0, 64⟩, 3, [(6, 2), (5, 1)]⟩ (by decide) (by decide)⟩


/-- Claim C3: the cursor starts at 1; each successful first-time
allocation returns `prefixBase + cursor` (modulo `2 ^ 128`, which never
wraps for a valid prefix — see the safety theorem) and advances the
cursor by one; and for a prefix with host-bit width
`h = 128 - networkLength`, after `2 ^ h - 1` successful
distinct-requester allocations the next allocation for a new requester
returns nothing. -/
theorem allocator_capacity (c : Ipv6Cidr) (_h1 : 1 ≤ c.network_length)
    (ids : List PeerId) (hnd : ids.Nodup)
    (hlen : ids.length = 2 ^ (128 - c.network_length) - 1)
    (id2 : PeerId) (hid2 : id2 ∉ ids) :
    (Ipv6Allocator.new c).next = 1
    ∧ ((allocList (Ipv6Allocator.new c) ids).1.all Option.isSome) = true
    ∧ (allocList (Ipv6Allocator.new c) ids).2.next = 2 ^ (128 - c.network_length)
    ∧ (allocate (allocList (Ipv6Allocator.new c) ids).2 id2).1 = none
    ∧ ∀ (s : Ipv6Allocator) (id : PeerId), findAssigned s.assigned id = none →
        s.next < 2 ^ (128 - s.pfx.network_length) →
        (allocate s id).1 = some ((s.pfx.address + s.next) % 2 ^ 128)
        ∧ (allocate s id).2.next = s.next + 1 := by
  have hpow : 1 ≤ 2 ^ (128 - c.network_length) := Nat.one_le_two_pow
  obtain ⟨r1, r2, r3, r4⟩ := allocList_run ids (Ipv6Allocator.new c) hnd
    (fun id _ => rfl)
    (by show 1 + ids.length ≤ 2 ^ (128 - c.network_length); omega)
  refine ⟨rfl, r1, ?_, ?_, ?_⟩
  · rw [r2]
    show 1 + ids.length = 2 ^ (128 - c.network_length)
    omega
  · have hfa2 : findAssigned (allocList (Ipv6Allocator.new c) ids).2.assigned id2 = none :=
      (r4 id2 hid2).trans rfl
    have hge : (allocList (Ipv6Allocator.new c) ids).2.next
        ≥ 2 ^ (128 - (allocList (Ipv6Allocator.new c) ids).2.pfx.network_length) := by
      rw [r2, r3]
      show 1 + ids.length ≥ 2 ^ (128 - c.network_length)
      omega
    rw [allocate, allocateCached, hfa2, allocateLocked, if_pos hge]
  · intro s id hfa hlt
    rw [allocate, allocateCached, hfa, allocateLocked, if_neg (by omega)]
    exact ⟨rfl, rfl⟩

/-- Witness for claim C3 on the `::/127` prefix (host width 1, capacity
`2 ^ 1 - 1 = 1`): allocating for requester 0 succeeds, then requester 1
gets nothing. -/
theorem allocator_capacity_witness :
    ((allocList (Ipv6Allocator.new ⟨0, 127⟩) [0]).1.all Option.isSome) = true
    ∧ (allocate (allocList (Ipv6Allocator.new ⟨0, 127⟩) [0]).2 1).1 = none := by
  have h := allocator_capacity ⟨0, 127⟩ (by norm_num) [0] (by simp) (by norm_num) 1 (by simp)
  exact ⟨h.2.1, h.2.2.2.1⟩

/-- Claim C10: for a valid prefix of network length at least 1, on every
reachable allocator state: the shift amount `128 - networkLength` is
below 128 (so `1u128 << hostBits` is well-defined), the cursor never
exceeds `2 ^ hostBits`, the sum `prefixBase + cursor` computed by a
fresh successful allocation stays below `2 ^ 128` (the `u128` addition
cannot wrap and the modelled reduction is the identity), and every
address `allocate` returns lies inside the allocator's prefix. -/
theorem allocate_arith_safe (s : Ipv6Allocator) (hs : Reachable s) (hv : CidrValid s.pfx)
    (h1 : 1 ≤ s.pfx.network_length) (id : PeerId) :
    128 - s.pfx.network_length < 128
    ∧ s.next ≤ 2 ^ (128 - s.pfx.network_length)
    ∧ (findAssigned s.assigned id = none → s.next < 2 ^ (128 - s.pfx.network_length) →
        s.pfx.address + s.next < 2 ^ 128
        ∧ (allocate s id).1 = some (s.pfx.address + s.next))
    ∧ ∀ (a : Nat) (s' : Ipv6Allocator), allocate s id = (some a, s') →
        s.pfx.address ≤ a ∧ a < s.pfx.address + 2 ^ (128 - s.pfx.network_length) := by
  obtain ⟨hk, hvn, hj, hn1, hn2⟩ := reachable_inv hs
  obtain ⟨hv1, hv2, hv3⟩ := hv
  have hsplit : 2 ^ (128 - s.pfx.network_length) * 2 ^ s.pfx.network_length = 2 ^ 128 := by
    rw [← pow_add]
    congr 1
    omega
  have hDle : 2 ^ (128 - s.pfx.network_length) ≤ 2 ^ 128 :=
    Nat.pow_le_pow_right (by norm_num) (Nat.sub_le _ _)
  have hbase : s.pfx.address ≤ 2 ^ 128 - 2 ^ (128 - s.pfx.network_length) := by
    obtain ⟨q, hq⟩ := Nat.dvd_of_mod_eq_zero hv3
    have hqlt : q < 2 ^ s.pfx.network_length := by
      by_contra hcq
      push_neg at hcq
      have hge2 : 2 ^ 128 ≤ s.pfx.address := by
        calc 2 ^ 128 = 2 ^ (128 - s.pfx.network_length) * 2 ^ s.pfx.network_length := hsplit.symm
          _ ≤ 2 ^ (128 - s.pfx.network_length) * q := Nat.mul_le_mul_left _ hcq
          _ = s.pfx.address := hq.symm
      omega
    have hstep : 2 ^ (128 - s.pfx.network_length) * (q + 1)
        ≤ 2 ^ (128 - s.pfx.network_length) * 2 ^ s.pfx.network_length :=
      Nat.mul_le_mul_left _ (by omega)
    have hexp : 2 ^ (128 - s.pfx.network_length) * (q + 1)
        = 2 ^ (128 - s.pfx.network_length) * q + 2 ^ (128 - s.pfx.network_length) := by ring
    omega
  refine ⟨by omega, hn2, ?_, ?_⟩
  · intro hfa hlt
    have hnw : s.pfx.address + s.next < 2 ^ 128 := by omega
    refine ⟨hnw, ?_⟩
    rw [allocate, allocateCached, hfa, allocateLocked, if_neg (by omega)]
    dsimp only
    rw [Nat.mod_eq_of_lt hnw]
  · intro a s' h2
    cases hcc : allocateCached s id with
    | some b =>
      rw [allocate, hcc] at h2
      injection h2 with h2a h2b
      obtain rfl : b = a := Option.some_inj.1 h2a
      rw [allocateCached] at hcc
      obtain ⟨j, hj1, hj2, hj3⟩ := hj _ (findAssigned_mem hcc)
      dsimp only at hj3
      have hjlt : j < 2 ^ (128 - s.pfx.network_length) := lt_of_lt_of_le hj2 hn2
      have hnwj : s.pfx.address + j < 2 ^ 128 := by omega
      rw [hj3, Nat.mod_eq_of_lt hnwj]
      omega
    | none =>
      by_cases hge : s.next ≥ 2 ^ (128 - s.pfx.network_length)
      · rw [allocate, hcc, allocateLocked, if_pos hge] at h2
        injection h2 with h2a h2b
        cases h2a
      · rw [allocate, hcc, allocateLocked, if_neg hge] at h2
        injection h2 with h2a h2b
        have hltn : s.next < 2 ^ (128 - s.pfx.network_length) := by omega
        have hnw : s.pfx.address + s.next < 2 ^ 128 := by omega
        obtain rfl : (s.pfx.address + s.next) % 2 ^ 128 = a := Option.some_inj.1 h2a
        rw [Nat.mod_eq_of_lt hnw]
        omega

/-- Witness for claim C10 on a fresh `::/64` allocator: the first
allocation computes `0 + 1 < 2 ^ 128` without wrapping, returns `::1`,
and `::1` lies inside the prefix. -/
theorem allocate_arith_safe_witness :
    (Ipv6Allocator.new ⟨0, 64⟩).pfx.address + (Ipv6Allocator.new ⟨0, 64⟩).next < 2 ^ 128
    ∧ (allocate (Ipv6Allocator.new ⟨0, 64⟩) 5).1
        = some ((Ipv6Allocator.new ⟨0, 64⟩).pfx.address + (Ipv6Allocator.new ⟨0, 64⟩).next) := by
  have h := allocate_arith_safe (Ipv6Allocator.new ⟨0, 64⟩) (Reachable.init _)
    ⟨by decide, by decide, by decide⟩ (by decide) 5
  exact h.2.2.1 rfl (by decide)


/-- `request_delegation` with the feature flag on, unfolded once. -/
theorem request_delegation_true_eq (entries : List IfEntry) (req : RequestDelegationRequest) :
    request_delegation true entries req =
      if (alloc_addrs_for_peer entries req.requester_peer_id req.count).isEmpty then
        .ok ⟨[], "no on-link /64 found", none⟩
      else
        .ok ⟨(alloc_addrs_for_peer entries req.requester_peer_id req.count).map (·.2), "",
          (alloc_addrs_for_peer entries req.requester_peer_id req.count).head?.map
            fun p => p.2.address⟩ := rfl

/-- Claim C7, counterexample: with `2 ^ 32` discovered prefixes and
`count = 0`, the length is truncated by `prefixes.len() as u32` to 0 and
the batch is empty, not one address per discovered prefix. -/
theorem alloc_count_truncated :
    allocOnPrefixes 7 0 (List.replicate (2 ^ 32) ("eth0", (⟨0, 64⟩ : Ipv6InetM))) = []
    ∧ (List.replicate (2 ^ 32) ("eth0", (⟨0, 64⟩ : Ipv6InetM))).length = 2 ^ 32 := by
  constructor
  · rw [allocOnPrefixes, if_neg ?hempty]
    case hempty =>
      intro hb
      rw [List.isEmpty_iff] at hb
      have hl := congrArg List.length hb
      rw [List.length_replicate, List.length_nil] at hl
      norm_num at hl
    rw [if_pos rfl, List.length_replicate]
    have hz : (2 ^ 32) % 4294967296 = 0 := by norm_num
    rw [hz]
    show allocGo 7 (List.take 0 (List.replicate (2 ^ 32) ("eth0", (⟨0, 64⟩ : Ipv6InetM)))) [] = []
    rw [List.take_zero]
    rfl
  · exact List.length_replicate _ _

/-- Claim C7 (amended): when discovery yields a non-empty prefix list of
length `d < 2 ^ 32` and the requested `u32` count is `c`, the batch is
non-empty and contains exactly `d` addresses if `c = 0` and exactly
`min c d` otherwise — one per selected prefix in discovery order (same
interface names, same upper 64 address bits), each a full `/128` — and
the response carries exactly these addresses with an empty error. -/
theorem alloc_count_semantics (r count : Nat) (entries : List IfEntry)
    (hcnt : count < 2 ^ 32)
    (hne : list_onlink_prefixes entries ≠ [])
    (hd : (list_onlink_prefixes entries).length < 2 ^ 32)
    (hwf : ∀ e ∈ entries, IfEntryWf e) :
    alloc_addrs_for_peer entries r count ≠ []
    ∧ (alloc_addrs_for_peer entries r count).length
        = (if count = 0 then (list_onlink_prefixes entries).length
           else min count (list_onlink_prefixes entries).length)
    ∧ (alloc_addrs_for_peer entries r count).map Prod.fst
        = ((list_onlink_prefixes entries).take
            (if count = 0 then (list_onlink_prefixes entries).length
             else min count (list_onlink_prefixes entries).length)).map Prod.fst
    ∧ ((alloc_addrs_for_peer entries r count).map fun p => p.2.address / 2 ^ 64)
        = (((list_onlink_prefixes entries).take
            (if count = 0 then (list_onlink_prefixes entries).length
             else min count (list_onlink_prefixes entries).length)).map
            fun p => p.2.firstAddress / 2 ^ 64)
    ∧ (∀ p ∈ alloc_addrs_for_peer entries r count, p.2.network_length = 128)
    ∧ request_delegation true entries ⟨r, count⟩
        = .ok ⟨(alloc_addrs_for_peer entries r count).map Prod.snd, "",
            (alloc_addrs_for_peer entries r count).head?.map fun p => p.2.address⟩ := by
  have hlen : (alloc_addrs_for_peer entries r count).length
      = (if count = 0 then (list_onlink_prefixes entries).length
         else min count (list_onlink_prefixes entries).length) :=
    allocOnPrefixes_length r count (list_onlink_prefixes entries) hne hd
  have hlen1 : 1 ≤ (list_onlink_prefixes entries).length := List.length_pos.2 hne
  have hwant1 : 1 ≤ (if count = 0 then (list_onlink_prefixes entries).length
      else min count (list_onlink_prefixes entries).length) := by
    rcases Nat.eq_zero_or_pos count with rfl | hpos
    · simpa using hlen1
    · rw [if_neg (by omega)]
      exact Nat.le_min.2 ⟨hpos, hlen1⟩
  have hne2 : alloc_addrs_for_peer entries r count ≠ [] := by
    intro h0
    rw [h0] at hlen
    simp only [List.length_nil] at hlen
    omega
  have hmod : (list_onlink_prefixes entries).length % 4294967296
      = (list_onlink_prefixes entries).length :=
    Nat.mod_eq_of_lt (by norm_num at hd ⊢; omega)
  have hunfold : alloc_addrs_for_peer entries r count
      = allocGo r ((list_onlink_prefixes entries).take
          (if count = 0 then (list_onlink_prefixes entries).length
           else min count (list_onlink_prefixes entries).length)) [] := by
    rw [alloc_addrs_for_peer, allocOnPrefixes, if_neg (by simpa [List.isEmpty_iff] using hne),
      hmod]
  have hie : (alloc_addrs_for_peer entries r count).isEmpty = false := by
    rcases h : alloc_addrs_for_peer entries r count with _ | ⟨p, rest⟩
    · exact absurd h hne2
    · rfl
  refine ⟨hne2, hlen, ?_, ?_, ?_, ?_⟩
  · rw [hunfold, allocGo_map_fst]
  · rw [hunfold]
    refine allocGo_top64 r _ _ ?_
    intro p hp
    have hp2 : p ∈ list_onlink_prefixes entries := List.mem_of_mem_take hp
    rw [list_onlink_prefixes] at hp2
    obtain ⟨e, he, heq⟩ := List.mem_filterMap.1 hp2
    obtain ⟨ip, hae, rfl⟩ := entryOnlink_inv heq
    exact lt_of_le_of_lt (Ipv6InetM.firstAddress_le _) (hwf e he ip hae)
  · rw [hunfold]
    exact allocGo_net_length r _ _
  · rw [request_delegation_true_eq, hie]
    rfl

/-- Witness for the amended claim C7: two qualifying interfaces carrying
a /64 each; `count = 0` yields 2 addresses, `count = 5` is capped at 2,
`count = 1` yields 1, and the response carries them with empty error. -/
theorem alloc_count_semantics_witness :
    (alloc_addrs_for_peer [sampleEntry1, sampleEntry2] 7 0).length = 2
    ∧ (alloc_addrs_for_peer [sampleEntry1, sampleEntry2] 7 5).length = 2
    ∧ (alloc_addrs_for_peer [sampleEntry1, sampleEntry2] 7 1).length = 1
    ∧ request_delegation true [sampleEntry1, sampleEntry2] ⟨7, 1⟩
        = .ok ⟨(alloc_addrs_for_peer [sampleEntry1, sampleEntry2] 7 1).map Prod.snd, "",
            (alloc_addrs_for_peer [sampleEntry1, sampleEntry2] 7 1).head?.map
              fun p => p.2.address⟩ := by
  have hwf : ∀ e ∈ [sampleEntry1, sampleEntry2], IfEntryWf e := by
    intro e he ip hip
    simp only [List.mem_cons, List.not_mem_nil, or_false] at he
    rcases he with rfl | rfl
    · simp only [sampleEntry1, SockAddrM.inet6.injEq, Option.some_inj] at hip
      rw [← hip]
      norm_num [sampleIp1]
    · simp only [sampleEntry2, SockAddrM.inet6.injEq, Option.some_inj] at hip
      rw [← hip]
      norm_num [sampleIp2]
  have h0 := alloc_count_semantics 7 0 [sampleEntry1, sampleEntry2]
    (by norm_num) (by decide) (by decide) hwf
  have h5 := alloc_count_semantics 7 5 [sampleEntry1, sampleEntry2]
    (by norm_num) (by decide) (by decide) hwf
  exact ⟨h0.2.1.trans (by decide), h5.2.1.trans (by decide),
    (alloc_count_semantics 7 1 [sampleEntry1, sampleEntry2] (by norm_num) (by decide)
      (by decide) hwf).2.1.trans (by decide),
    (alloc_count_semantics 7 1 [sampleEntry1, sampleEntry2] (by norm_num) (by decide)
      (by decide) hwf).2.2.2.2.2⟩

/-- Claim C1: `request_delegation` always returns `Ok`; with the flag
off the response is exactly `{[], "server disabled", None}`; with the
flag on and an empty allocation batch the response is exactly
`{[], "no on-link /64 found", None}`; otherwise the error is the empty
string, the addresses are the batch and the overlay anchor is the first
address. -/
theorem request_delegation_shape (flag : Bool) (entries : List IfEntry)
    (req : RequestDelegationRequest) :
    (∃ resp, request_delegation flag entries req = Except.ok resp)
    ∧ (flag = false → request_delegation flag entries req = .ok ⟨[], "server disabled", none⟩)
    ∧ (flag = true → alloc_addrs_for_peer entries req.requester_peer_id req.count = [] →
        request_delegation flag entries req = .ok ⟨[], "no on-link /64 found", none⟩)
    ∧ (flag = true →
        ∀ out, alloc_addrs_for_peer entries req.requester_peer_id req.count = out →
        out ≠ [] → request_delegation flag entries req
          = .ok ⟨out.map Prod.snd, "", out.head?.map fun p => p.2.address⟩) := by
  cases flag with
  | false =>
    exact ⟨⟨_, rfl⟩, fun _ => rfl, fun h => absurd h (by simp),
      fun h => absurd h (by simp)⟩
  | true =>
    by_cases ha : alloc_addrs_for_peer entries req.requester_peer_id req.count = []
    · have hie : (alloc_addrs_for_peer entries req.requester_peer_id req.count).isEmpty
          = true := by rw [ha]; rfl
      have hmain : request_delegation true entries req = .ok ⟨[], "no on-link /64 found", none⟩ := by
        rw [request_delegation_true_eq, hie]
        rfl
      refine ⟨⟨_, hmain⟩, fun h => absurd h (by simp), fun _ _ => hmain, ?_⟩
      intro _ out hout hne
      rw [← hout] at hne
      exact absurd ha hne
    · have hie : (alloc_addrs_for_peer entries req.requester_peer_id req.count).isEmpty
          = false := by
        rcases h : alloc_addrs_for_peer entries req.requester_peer_id req.count with _ | ⟨p, rest⟩
        · exact absurd h ha
        · rfl
      have hmain : request_delegation true entries req
          = .ok ⟨(alloc_addrs_for_peer entries req.requester_peer_id req.count).map Prod.snd, "",
              (alloc_addrs_for_peer entries req.requester_peer_id req.count).head?.map
                fun p => p.2.address⟩ := by
        rw [request_delegation_true_eq, hie]
        rfl
      refine ⟨⟨_, hmain⟩, fun h => absurd h (by simp), fun _ h => absurd h ha, ?_⟩
      intro _ out hout hne
      rw [← hout]
      exact hmain

/-- Witness for claim C1: the three response shapes at concrete inputs —
flag off, flag on with no interfaces, and flag on with one qualifying
interface. -/
theorem request_delegation_shape_witness :
    request_delegation false [] ⟨7, 1⟩ = .ok ⟨[], "server disabled", none⟩
    ∧ request_delegation true [] ⟨7, 1⟩ = .ok ⟨[], "no on-link /64 found", none⟩
    ∧ request_delegation true [sampleEntry1] ⟨7, 1⟩
        = .ok ⟨(alloc_addrs_for_peer [sampleEntry1] 7 1).map Prod.snd, "",
            (alloc_addrs_for_peer [sampleEntry1] 7 1).head?.map fun p => p.2.address⟩ := by
  refine ⟨(request_delegation_shape false [] ⟨7, 1⟩).2.1 rfl,
    (request_delegation_shape true [] ⟨7, 1⟩).2.2.1 rfl rfl,
    (request_delegation_shape true [sampleEntry1] ⟨7, 1⟩).2.2.2 rfl _ rfl (by decide)⟩

end EasyTier
